import Mathlib

/-!
# Verification of the mosaicify core (`src/mosaic.rs`, `src/lab.rs`)

A shallow embedding of the mosaic-generation core of the repository:
the per-pixel color transforms (`rgb_identity`, `rgb2lab`, `rgb2gray`),
the per-tile distance function (`similarity`), the per-cell candidate
scan and minimum selection, the duplicate-avoidance bookkeeping of the
traversal loop, and the canvas compositing (`replace` / `crop_imm`).

Numeric modelling: `f32` arithmetic is modelled over `ℚ` (exact rational
arithmetic).  The two transcendental library functions the code calls,
`f32::powf` and `f32::sqrt`, are modelled as explicit function parameters
(`pw : ℚ → ℚ → ℚ`, `sqrtFn : ℚ → ℚ`); theorems state only what holds for
every interpretation of those parameters, or assume the specific algebraic
facts (`pw 1 e = 1`, `sqrtFn 0 = 0`) that any model of the real power /
square-root functions satisfies.
-/

namespace Mosaicify

/-- A pixel of an `Rgb32FImage`: three `f32` channels, modelled as rationals. -/
abbrev Pixel : Type := ℚ × ℚ × ℚ

/-- An image, width-major: `img[x][y]` is the pixel at column `x`, row `y`
(matching the `tmp[x][y]` indexing of the feature-map builders in
`src/mosaic.rs`). -/
abbrev Image : Type := List (List Pixel)

/-- A feature map `Vec<Vec<Vec<f32>>>`: per-pixel numeric feature vectors. -/
abbrev FeatureMap : Type := List (List (List ℚ))

/-- The conversion performed by `DynamicImage::into_rgb32f` on an 8-bit
channel: the `image` crate normalizes a `u8` sample `c` to the `f32`
sample `c / 255`. -/
def decodeChannel (c : ℕ) : ℚ := (c : ℚ) / 255

/-- Embeds `rgb2lab` from `src/lab.rs` (lines 166–205): sRGB inverse gamma,
D65 XYZ matrix, CIELAB nonlinearity, with the final L component doubled.
`pw` stands for `f32::powf`.  Note the function begins by dividing each
channel by `255.0`, exactly as the source does. -/
def rgb2lab (pw : ℚ → ℚ → ℚ) (rgb : Pixel) : ℚ × ℚ × ℚ :=
  let r0 := rgb.1 / 255
  let g0 := rgb.2.1 / 255
  let b0 := rgb.2.2 / 255
  let r := if r0 > 0.04045 then pw ((r0 + 0.055) / 1.055) 2.4 else r0 / 12.92
  let g := if g0 > 0.04045 then pw ((g0 + 0.055) / 1.055) 2.4 else g0 / 12.92
  let b := if b0 > 0.04045 then pw ((b0 + 0.055) / 1.055) 2.4 else b0 / 12.92
  let x0 := (r * 0.4124 + g * 0.3576 + b * 0.1805) / 0.95047
  let y0 := (r * 0.2126 + g * 0.7152 + b * 0.0722) / 1.00000
  let z0 := (r * 0.0193 + g * 0.1192 + b * 0.9505) / 1.08883
  let x := if x0 > 0.008856 then pw x0 (1/3) else (7.787 * x0) + 16.0 / 116.0
  let y := if y0 > 0.008856 then pw y0 (1/3) else (7.787 * y0) + 16.0 / 116.0
  let z := if z0 > 0.008856 then pw z0 (1/3) else (7.787 * z0) + 16.0 / 116.0
  let l := (116.0 * y) - 16.0
  let a := 500.0 * (x - y)
  let b2 := 200.0 * (y - z)
  (2.0 * l, a, b2)

/-- Embeds `rgb_to_luma` of the `image` crate (called through
`Pixel::to_luma` by `rgb2gray` in `src/mosaic.rs`): the sRGB luma
coefficients `SRGB_LUMA = [2126, 7152, 722]` with divisor `10000`. -/
def rgb_to_luma (p : Pixel) : ℚ :=
  (2126 * p.1 + 7152 * p.2.1 + 722 * p.2.2) / 10000

/-- Embeds `rgb_identity` from `src/mosaic.rs` (lines 145–152): the feature
vector of each pixel is its raw channel triple. -/
def rgb_identity (image : Image) : FeatureMap :=
  image.map (fun col => col.map (fun p => [p.1, p.2.1, p.2.2]))

/-- Embeds `rgb2lab` from `src/mosaic.rs` (lines 154–161): per-pixel Lab
transform via `PixelLabExt::to_lab`, collecting all three components. -/
def rgb2labMap (pw : ℚ → ℚ → ℚ) (image : Image) : FeatureMap :=
  image.map (fun col => col.map (fun p =>
    let lab := rgb2lab pw p
    [lab.1, lab.2.1, lab.2.2]))

/-- Embeds `rgb2gray` from `src/mosaic.rs` (lines 163–170): per-pixel luma
via `Pixel::to_luma`, a one-component feature vector. -/
def rgb2gray (image : Image) : FeatureMap :=
  image.map (fun col => col.map (fun p => [rgb_to_luma p]))

/-- The color-space selector of `src/mosaic.rs` (`enum ColorSpace`). -/
inductive ColorSpace : Type
  | rgb
  | lab
  | gray
deriving DecidableEq

/-- The dispatch in `mosaic` (lines 74–78 of `src/mosaic.rs`): each color
space is bound to its feature-map builder. -/
def applyColorSpace (pw : ℚ → ℚ → ℚ) : ColorSpace → Image → FeatureMap
  | .rgb => rgb_identity
  | .lab => rgb2labMap pw
  | .gray => rgb2gray

/-- C1: as used by the run (`into_rgb32f` decoding followed by the Lab
transform of `src/lab.rs`), pure white `(255,255,255)` decodes to channel
values `(1,1,1)` and maps to `L_final = 225823/411825 ≈ 0.548`, which is
below `1` — not approximately `200` as the claim states.  Pure black does
map to `L_final = 0`.  The result is independent of the model `pw` of
`f32::powf` because every branch taken is linear. -/
theorem c1_lab_lightness_as_run (pw : ℚ → ℚ → ℚ) :
    (rgb2lab pw (decodeChannel 255, decodeChannel 255, decodeChannel 255)).1
        = 225823 / 411825 ∧
    (rgb2lab pw (decodeChannel 0, decodeChannel 0, decodeChannel 0)).1 = 0 ∧
    (225823 / 411825 : ℚ) < 1 := by
  refine ⟨?_, ?_, by norm_num⟩ <;> norm_num [rgb2lab, decodeChannel]

/-- Intent check: on raw `0..=255` channel values (as in the legacy `u8`
pipeline the function was written for), `rgb2lab` does map pure white to
`L_final = 200`, for every model of `powf` that sends base `1` to `1`. -/
theorem rgb2lab_white_on_raw_channels (pw : ℚ → ℚ → ℚ)
    (h24 : pw 1 (12/5) = 1) (h13 : pw 1 (1/3) = 1) :
    (rgb2lab pw (255, 255, 255)).1 = 200 := by
  norm_num [rgb2lab, h24, h13]

/-- Witness for `rgb2lab_white_on_raw_channels` at a concrete power model. -/
theorem rgb2lab_white_on_raw_channels_witness :
    ((fun _ _ => (1 : ℚ)) 1 (12/5) = 1) ∧
    (rgb2lab (fun _ _ => (1 : ℚ)) (255, 255, 255)).1 = 200 :=
  ⟨rfl, rgb2lab_white_on_raw_channels (fun _ _ => 1) rfl rfl⟩

/-- The index enumeration `iproduct!(0..n, 0..m)` of the `itertools` crate:
all pairs `(i, j)` with `i < n`, `j < m`, in lexicographic order with the
first component outermost. -/
def iproduct (n m : ℕ) : List (ℕ × ℕ) :=
  (List.range n).bind (fun i => (List.range m).map (fun j => (i, j)))

/-- Embeds `similarity` from `src/mosaic.rs` (lines 172–187): `None` when
the outer dimensions (or the first-column lengths) differ, otherwise the
sum over all `(x, y)` index pairs of `sqrt` of the sum of squared
channel differences.  `sqrtFn` stands for `f32::sqrt`; the source's
`a[0]` is modelled as `headD []` (they agree whenever `a` is nonempty,
and `a[0]` panics otherwise). -/
def similarity (sqrtFn : ℚ → ℚ) (a b : FeatureMap) : Option ℚ :=
  if ¬(a.length = b.length ∧ (a.headD []).length = (b.headD []).length) then
    none
  else
    some (((iproduct a.length (a.headD []).length).map (fun p =>
      sqrtFn ((((a.getD p.1 []).getD p.2 []).zip ((b.getD p.1 []).getD p.2 [])).map
        (fun q => (q.1 - q.2) ^ 2)).sum)).sum)

/-- Models the `min_by` reduction over `(score, index)` pairs (lines
114–117 of `src/mosaic.rs`): compares by score only.  The parallel
reduction of `rayon` does not fix which of several equal-score elements
wins; this model fixes the deterministic first-minimum tie-break. -/
def minByFirst (l : List (ℚ × ℕ)) : Option (ℚ × ℕ) :=
  match l with
  | [] => none
  | x :: xs => some (xs.foldl (fun acc y => if y.1 < acc.1 then y else acc) x)

/-- Embeds the per-cell candidate scan of `mosaic` (lines 104–113 of
`src/mosaic.rs`): enumerate the tile library, drop used indices when
duplicate-avoidance is on, recompute the block's feature map inside the
per-tile closure (as the source does), and score the survivors. -/
def scanTiles (sqrtFn : ℚ → ℚ) (pw : ℚ → ℚ → ℚ) (cs : ColorSpace) (avoid : Bool)
    (used : Finset ℕ) (blockImage : Image) (tiles : List (Image × FeatureMap)) :
    List (ℚ × ℕ) :=
  tiles.enum.filterMap (fun t =>
    if avoid ∧ t.1 ∈ used then none
    else
      let blockCol := applyColorSpace pw cs blockImage
      (similarity sqrtFn blockCol t.2.2).map (fun s => (s, t.1)))

/-- Modelled from the spec (§4.4 step 2): the reference scan that computes
the block's feature map once per cell, before the per-tile loop.  Kept
separate from `scanTiles` to state the refinement claim. -/
def scanTilesRef (sqrtFn : ℚ → ℚ) (pw : ℚ → ℚ → ℚ) (cs : ColorSpace) (avoid : Bool)
    (used : Finset ℕ) (blockImage : Image) (tiles : List (Image × FeatureMap)) :
    List (ℚ × ℕ) :=
  let blockCol := applyColorSpace pw cs blockImage
  tiles.enum.filterMap (fun t =>
    if avoid ∧ t.1 ∈ used then none
    else (similarity sqrtFn blockCol t.2.2).map (fun s => (s, t.1)))

/-- The per-cell selection (scan followed by the `min_by` reduction whose
failure is the `expect("Failed to find the best matching image.")`
panic, modelled as `none`). -/
def selectBest (sqrtFn : ℚ → ℚ) (pw : ℚ → ℚ → ℚ) (cs : ColorSpace) (avoid : Bool)
    (used : Finset ℕ) (blockImage : Image) (tiles : List (Image × FeatureMap)) :
    Option (ℚ × ℕ) :=
  minByFirst (scanTiles sqrtFn pw cs avoid used blockImage tiles)

/-- Embeds `read_images_from_directory` from `src/mosaic.rs` (lines
134–143): each directory entry is decoded in order; the first decode
failure aborts with an error, otherwise all decoded images are collected
in order.  An entry is modelled as `Option Image` (`none` = the open or
decode step failed). -/
def read_images_from_directory : List (Option Image) → Except String (List Image)
  | [] => .ok []
  | e :: es =>
    match e with
    | none => .error "Failed to decode an image."
    | some img =>
      match read_images_from_directory es with
      | .error m => .error m
      | .ok imgs => .ok (img :: imgs)

/-- C2 counterexample: on the decoded pixel `(1, 0, 0)` (pure red), the
gray transform of the run produces the single component `1063/5000 =
0.2126` (the `image` crate's sRGB luma), not `0.3·1 + 0.59·0 + 0.11·0 =
0.3` as the claim's weights state. -/
theorem c2_gray_counterexample :
    rgb2gray [[((1 : ℚ), (0 : ℚ), (0 : ℚ))]] = [[[(1063 / 5000 : ℚ)]]] ∧
    (1063 / 5000 : ℚ) ≠ 0.3 * 1 + 0.59 * 0 + 0.11 * 0 := by
  constructor
  · norm_num [rgb2gray, rgb_to_luma]
  · norm_num

/-- C2 (amended): for every pixel of the image, the gray transform
produces a feature vector of arity 1 whose single component is
`0.2126·R + 0.7152·G + 0.0722·B` (the sRGB luma weighting of the `image`
crate's `to_luma`, `(2126·R + 7152·G + 722·B)/10000`). -/
theorem c2_gray_arity_and_weights (img : Image) (x y : ℕ)
    (hx : x < img.length) (hy : y < (img.getD x []).length) :
    ((rgb2gray img).getD x []).getD y [] =
      [(0.2126 : ℚ) * ((img.getD x []).getD y (0, 0, 0)).1
        + 0.7152 * ((img.getD x []).getD y (0, 0, 0)).2.1
        + 0.0722 * ((img.getD x []).getD y (0, 0, 0)).2.2] := by
  have hxy : img.getD x [] = img[x] := List.getD_eq_getElem img [] hx
  have hy1 : y < img[x].length := by rw [hxy] at hy; exact hy
  have h1 : (rgb2gray img).getD x [] = img[x].map (fun p => [rgb_to_luma p]) := by
    rw [rgb2gray, List.getD_eq_getElem _ [] (by simpa using hx), List.getElem_map]
  rw [h1, List.getD_eq_getElem _ [] (by simpa using hy1), List.getElem_map,
    hxy, List.getD_eq_getElem _ _ hy1]
  simp only [rgb_to_luma]
  norm_num
  ring

/-- Witness for `c2_gray_arity_and_weights` at a concrete 1×1 image. -/
theorem c2_gray_arity_and_weights_witness :
    (0 < ([[((1 : ℚ), (1 / 2 : ℚ), (1 / 4 : ℚ))]] : Image).length) ∧
    (0 < (([[((1 : ℚ), (1 / 2 : ℚ), (1 / 4 : ℚ))]] : Image).getD 0 []).length) ∧
    ((rgb2gray [[((1 : ℚ), (1 / 2 : ℚ), (1 / 4 : ℚ))]]).getD 0 []).getD 0 [] =
      [(0.2126 : ℚ) * 1 + 0.7152 * (1 / 2) + 0.0722 * (1 / 4)] := by
  refine ⟨by decide, by decide, ?_⟩
  have := c2_gray_arity_and_weights [[((1 : ℚ), (1 / 2 : ℚ), (1 / 4 : ℚ))]] 0 0
    (by decide) (by decide)
  simpa using this

/-- The componentwise difference of two feature vectors. -/
def vecSub (v w : List ℚ) : List ℚ := List.zipWith (fun a b => a - b) v w

/-- The Euclidean (L2) norm of a feature vector, with `sqrtFn` standing
for `f32::sqrt`. -/
def l2Norm (sqrtFn : ℚ → ℚ) (v : List ℚ) : ℚ :=
  sqrtFn ((v.map (fun a => a ^ 2)).sum)

/-- Modelled from the spec (§4.4 step 3): the distance score as the spec
words it — the sum over all pixel positions of the Euclidean norm of the
per-pixel difference of the two feature vectors. -/
def distanceSpec (sqrtFn : ℚ → ℚ) (a b : FeatureMap) : ℚ :=
  ((iproduct a.length (a.headD []).length).map (fun p =>
    l2Norm sqrtFn (vecSub ((a.getD p.1 []).getD p.2 []) ((b.getD p.1 []).getD p.2 [])))).sum

/-- Per-pixel bridge: the code's `zip`-then-square sum equals the L2 norm
of the componentwise vector difference. -/
theorem perPixelL2 (sqrtFn : ℚ → ℚ) (v w : List ℚ) :
    sqrtFn (((v.zip w).map (fun q => (q.1 - q.2) ^ 2)).sum)
      = l2Norm sqrtFn (vecSub v w) := by
  have : ((v.zip w).map (fun q => (q.1 - q.2) ^ 2)) = (vecSub v w).map (fun a => a ^ 2) := by
    induction v generalizing w with
    | nil => cases w <;> simp [vecSub]
    | cons c cs ih => cases w <;> simp [vecSub, ih]
  rw [this, l2Norm]

/-- C6: when the dimension check passes, the distance score computed by
`similarity` is exactly the sum, over all pixel positions, of the
Euclidean norm of the per-pixel feature-vector difference — neither
averaged over pixels nor left as a sum of squares. -/
theorem c6_distance_is_sum_of_l2_norms (sqrtFn : ℚ → ℚ) (a b : FeatureMap)
    (hl : a.length = b.length)
    (hw : (a.headD []).length = (b.headD []).length) :
    similarity sqrtFn a b = some (distanceSpec sqrtFn a b) := by
  rw [similarity, if_neg (not_not_intro ⟨hl, hw⟩), distanceSpec]
  refine congrArg some (congrArg List.sum (List.map_congr_left fun p _ => ?_))
  exact perPixelL2 sqrtFn _ _

/-- Witness for `c6_distance_is_sum_of_l2_norms` on a concrete 1×2
feature map pair with 2-component vectors. -/
theorem c6_distance_witness :
    (([[[(1 : ℚ), 2], [0, 0]]] : FeatureMap).length
        = ([[[(0 : ℚ), 4], [1, 1]]] : FeatureMap).length) ∧
    ((([[[(1 : ℚ), 2], [0, 0]]] : FeatureMap).headD []).length
        = (([[[(0 : ℚ), 4], [1, 1]]] : FeatureMap).headD []).length) ∧
    similarity id [[[(1 : ℚ), 2], [0, 0]]] [[[(0 : ℚ), 4], [1, 1]]]
      = some (distanceSpec id [[[(1 : ℚ), 2], [0, 0]]] [[[(0 : ℚ), 4], [1, 1]]]) :=
  ⟨rfl, rfl, c6_distance_is_sum_of_l2_norms id _ _ rfl rfl⟩

/-- The zipped self-difference square sum of any vector is zero. -/
theorem zipSelfSqSum (v : List ℚ) :
    ((v.zip v).map (fun q => (q.1 - q.2) ^ 2)).sum = 0 := by
  induction v with
  | nil => simp
  | cons c cs ih => simp [ih]

/-- Applying `similarity` to any feature map and itself gives `some 0`,
for any model of `sqrt` that fixes `0`. -/
theorem similarity_self (sqrtFn : ℚ → ℚ) (h0 : sqrtFn 0 = 0) (a : FeatureMap) :
    similarity sqrtFn a a = some 0 := by
  rw [similarity, if_neg (not_not_intro ⟨rfl, rfl⟩)]
  refine congrArg some (List.sum_eq_zero fun x hx => ?_)
  obtain ⟨p, _, rfl⟩ := List.mem_map.mp hx
  rw [zipSelfSqSum, h0]

/-- C9: for every color space in `{rgb, lab, gray}` and every image, the
distance between the image's feature map and itself is exactly 0 (for any
model of `f32::sqrt` with `sqrt 0 = 0`, which the exact `f32` square root
satisfies). -/
theorem c9_self_distance_zero (cs : ColorSpace) (img : Image)
    (pw : ℚ → ℚ → ℚ) (sqrtFn : ℚ → ℚ) (h0 : sqrtFn 0 = 0) :
    similarity sqrtFn (applyColorSpace pw cs img) (applyColorSpace pw cs img)
      = some 0 :=
  similarity_self sqrtFn h0 _

/-- Witness for `c9_self_distance_zero` with the gray space on a concrete
image and `sqrt` modelled by the identity (which fixes `0`). -/
theorem c9_self_distance_zero_witness :
    (id (0 : ℚ) = 0) ∧
    similarity id
      (applyColorSpace (fun _ _ => 1) .gray [[((1 : ℚ), (1 / 2 : ℚ), (0 : ℚ))]])
      (applyColorSpace (fun _ _ => 1) .gray [[((1 : ℚ), (1 / 2 : ℚ), (0 : ℚ))]])
      = some 0 :=
  ⟨rfl, c9_self_distance_zero .gray _ _ id rfl⟩

/-- C10: recomputing the block's feature map inside the per-tile closure
(as `scanTiles`, following the source) produces the same list of
`(score, index)` candidate pairs as the reference procedure that computes
it once per cell (`scanTilesRef`), and hence the same selected winner
under the fixed tie-break; the color transform is pure, so the two are
definitionally equal. -/
theorem c10_recompute_eq_reference (sqrtFn : ℚ → ℚ) (pw : ℚ → ℚ → ℚ)
    (cs : ColorSpace) (avoid : Bool) (used : Finset ℕ) (blockImage : Image)
    (tiles : List (Image × FeatureMap)) :
    scanTiles sqrtFn pw cs avoid used blockImage tiles
        = scanTilesRef sqrtFn pw cs avoid used blockImage tiles ∧
    selectBest sqrtFn pw cs avoid used blockImage tiles
        = minByFirst (scanTilesRef sqrtFn pw cs avoid used blockImage tiles) :=
  ⟨rfl, rfl⟩

/-- The `min_by` reduction yields `none` exactly on an empty candidate
list (the `expect` panic fires exactly when no candidate scored). -/
theorem minByFirst_eq_none_iff (l : List (ℚ × ℕ)) :
    minByFirst l = none ↔ l = [] := by
  cases l <;> simp [minByFirst]

/-- The `min_by` result is one of the candidates. -/
theorem minByFirst_mem {l : List (ℚ × ℕ)} {p : ℚ × ℕ}
    (h : minByFirst l = some p) : p ∈ l := by
  have hgen : ∀ (ys : List (ℚ × ℕ)) (acc : ℚ × ℕ),
      ys.foldl (fun acc y => if y.1 < acc.1 then y else acc) acc ∈ acc :: ys := by
    intro ys
    induction ys with
    | nil => intro acc; simp
    | cons y ys ih =>
      intro acc
      simp only [List.foldl_cons]
      rcases List.mem_cons.mp (ih (if y.1 < acc.1 then y else acc)) with h1 | h1
      · rw [h1]
        by_cases hc : y.1 < acc.1
        · rw [if_pos hc]; exact List.mem_cons_of_mem _ (List.mem_cons_self _ _)
        · rw [if_neg hc]; exact List.mem_cons_self _ _
      · exact List.mem_cons_of_mem _ (List.mem_cons_of_mem _ h1)
  match l with
  | [] => simp [minByFirst] at h
  | x :: xs =>
    simp only [minByFirst, Option.some.injEq] at h
    subst h
    exact hgen xs x

/-- Membership in the candidate scan determines the tile: the pair
`(s, i)` can only arise from tile `i` of the library, with `i` eligible
and its feature map scoring `some s` against the block. -/
theorem mem_scanTiles {sqrtFn : ℚ → ℚ} {pw : ℚ → ℚ → ℚ} {cs : ColorSpace}
    {avoid : Bool} {used : Finset ℕ} {blockImage : Image}
    {tiles : List (Image × FeatureMap)} {s : ℚ} {i : ℕ}
    (h : (s, i) ∈ scanTiles sqrtFn pw cs avoid used blockImage tiles) :
    ∃ img col, tiles[i]? = some (img, col) ∧ ¬(avoid ∧ i ∈ used) ∧
      similarity sqrtFn (applyColorSpace pw cs blockImage) col = some s := by
  obtain ⟨t, hmem, hres⟩ := List.mem_filterMap.mp h
  obtain ⟨j, img, col⟩ := t
  by_cases hcond : avoid ∧ j ∈ used
  · simp [hcond] at hres
  · rw [if_neg hcond, Option.map_eq_some'] at hres
    obtain ⟨s', hs', heq⟩ := hres
    injection heq with h1 h2
    subst h1
    subst h2
    exact ⟨img, col, List.mk_mem_enum_iff_getElem?.mp hmem, hcond, hs'⟩

/-- C3 counterexample: a library holding a tile whose feature map has the
wrong dimensions (tile 0, an empty map against a 1×1 block) alongside one
well-dimensioned tile (tile 1).  `similarity` returns `None` for tile 0,
`filter_map` silently drops it, and the selection still succeeds with
tile 1 — no fatal internal error is surfaced. -/
theorem c3_counterexample :
    similarity id (applyColorSpace (fun _ _ => 1) .rgb [[((0 : ℚ), (0 : ℚ), (0 : ℚ))]]) [] = none ∧
    selectBest id (fun _ _ => 1) .rgb false ∅ [[((0 : ℚ), (0 : ℚ), (0 : ℚ))]]
      [([[((0 : ℚ), (0 : ℚ), (0 : ℚ))]], []),
       ([[((0 : ℚ), (0 : ℚ), (0 : ℚ))]], [[[0, 0, 0]]])] = some (0, 1) := by
  refine ⟨rfl, ?_⟩
  norm_num [selectBest, scanTiles, minByFirst, similarity, applyColorSpace,
    rgb_identity, iproduct, List.enum, List.enumFrom, List.filterMap,
    List.range_succ, List.range_zero, List.bind]

/-- C3 (amended): a tile whose feature map fails the dimension check at
comparison time is silently excluded from candidacy (no `(score, index)`
pair for it is ever produced), and the fatal error (`expect` panic,
modelled as `none`) is raised exactly when no tile at all produces a
score. -/
theorem c3_mismatch_silently_excluded (sqrtFn : ℚ → ℚ) (pw : ℚ → ℚ → ℚ)
    (cs : ColorSpace) (avoid : Bool) (used : Finset ℕ) (blockImage : Image)
    (tiles : List (Image × FeatureMap)) (i : ℕ) (img : Image) (col : FeatureMap)
    (hget : tiles[i]? = some (img, col))
    (hnone : similarity sqrtFn (applyColorSpace pw cs blockImage) col = none) :
    (∀ s : ℚ, (s, i) ∉ scanTiles sqrtFn pw cs avoid used blockImage tiles) ∧
    (selectBest sqrtFn pw cs avoid used blockImage tiles = none ↔
      scanTiles sqrtFn pw cs avoid used blockImage tiles = []) := by
  refine ⟨fun s hs => ?_, minByFirst_eq_none_iff _⟩
  obtain ⟨img', col', hget', _, hsome⟩ := mem_scanTiles hs
  rw [hget] at hget'
  obtain ⟨rfl, rfl⟩ : img' = img ∧ col' = col := by
    cases hget'
    exact ⟨rfl, rfl⟩
  rw [hnone] at hsome
  exact Option.noConfusion hsome

/-- Witness for `c3_mismatch_silently_excluded` at the concrete mismatched
library of the counterexample. -/
theorem c3_mismatch_witness :
    (([([[((0 : ℚ), (0 : ℚ), (0 : ℚ))]], ([] : FeatureMap)),
        ([[((0 : ℚ), (0 : ℚ), (0 : ℚ))]], [[[0, 0, 0]]])] :
        List (Image × FeatureMap))[0]?
      = some ([[((0 : ℚ), (0 : ℚ), (0 : ℚ))]], [])) ∧
    (similarity id (applyColorSpace (fun _ _ => 1) .rgb
        [[((0 : ℚ), (0 : ℚ), (0 : ℚ))]]) [] = none) ∧
    (((0 : ℚ), 0) ∉ scanTiles id (fun _ _ => 1) .rgb false ∅
        [[((0 : ℚ), (0 : ℚ), (0 : ℚ))]]
        [([[((0 : ℚ), (0 : ℚ), (0 : ℚ))]], []),
         ([[((0 : ℚ), (0 : ℚ), (0 : ℚ))]], [[[0, 0, 0]]])]) :=
  ⟨rfl, rfl,
    (c3_mismatch_silently_excluded id (fun _ _ => 1) .rgb false ∅
      [[((0 : ℚ), (0 : ℚ), (0 : ℚ))]]
      [([[((0 : ℚ), (0 : ℚ), (0 : ℚ))]], []),
       ([[((0 : ℚ), (0 : ℚ), (0 : ℚ))]], [[[0, 0, 0]]])]
      0 [[((0 : ℚ), (0 : ℚ), (0 : ℚ))]] [] rfl rfl).1 0⟩

/-- C4 counterexample: an empty source directory produces `Ok([])` from
`read_images_from_directory` — no configuration error is reported during
preprocessing — and the fatal failure (`none`, the `expect` panic of the
matcher) only occurs once the grid traversal reaches its first cell. -/
theorem c4_counterexample :
    read_images_from_directory [] = Except.ok [] ∧
    scanTiles id (fun _ _ => 1) .rgb false ∅ [[((0 : ℚ), (0 : ℚ), (0 : ℚ))]] [] = [] ∧
    selectBest id (fun _ _ => 1) .rgb false ∅ [[((0 : ℚ), (0 : ℚ), (0 : ℚ))]] [] = none :=
  ⟨rfl, rfl, rfl⟩

/-- C4 (amended): an empty source library passes preprocessing untouched
(`Ok([])`, so tile preprocessing trivially succeeds and traversal does
begin) and the run instead dies at the first traversal cell: with no
tiles, the candidate scan is empty and the selection is the fatal
`expect` panic, for every color space, block and duplicate-avoidance
setting. -/
theorem c4_empty_library_fails_at_first_cell (sqrtFn : ℚ → ℚ) (pw : ℚ → ℚ → ℚ)
    (cs : ColorSpace) (avoid : Bool) (used : Finset ℕ) (blockImage : Image) :
    read_images_from_directory [] = Except.ok [] ∧
    scanTiles sqrtFn pw cs avoid used blockImage [] = [] ∧
    selectBest sqrtFn pw cs avoid used blockImage [] = none :=
  ⟨rfl, rfl, rfl⟩

/-- The UsedSet after `k` cells of the traversal loop of `mosaic` (lines
98–121 of `src/mosaic.rs`) with duplicate-avoidance enabled: starting
from the empty `BTreeSet`, each cell first clears the set when its size
equals the library size `N`, then inserts the index chosen by the scan
(`choose k` abstracts the per-cell selection over the library; `none`
models the fatal `expect` panic, after which no further state exists). -/
def usedStateAt (N : ℕ) (choose : ℕ → Finset ℕ → Option ℕ) : ℕ → Finset ℕ
  | 0 => ∅
  | k + 1 =>
    let u := usedStateAt N choose k
    let u1 := if u.card = N then (∅ : Finset ℕ) else u
    match choose k u1 with
    | some i => insert i u1
    | none => u1

/-- The UsedSet as the scan of cell `k` sees it: after the conditional
clearing, before the insertion. -/
def preSearchAt (N : ℕ) (choose : ℕ → Finset ℕ → Option ℕ) (k : ℕ) : Finset ℕ :=
  if (usedStateAt N choose k).card = N then ∅ else usedStateAt N choose k

/-- The tile index selected at cell `k` of the traversal. -/
def selAt (N : ℕ) (choose : ℕ → Finset ℕ → Option ℕ) (k : ℕ) : Option ℕ :=
  choose k (preSearchAt N choose k)

/-- Whether the `used.clear()` of cell `k` fires: exactly when the UsedSet
size before the cell equals the library size. -/
def clearedAt (N : ℕ) (choose : ℕ → Finset ℕ → Option ℕ) (k : ℕ) : Bool :=
  decide ((usedStateAt N choose k).card = N)

/-- One unfolding of the state recursion in terms of `selAt` and
`preSearchAt`. -/
theorem usedStateAt_succ (N : ℕ) (choose : ℕ → Finset ℕ → Option ℕ) (k : ℕ) :
    usedStateAt N choose (k + 1) =
      match selAt N choose k with
      | some i => insert i (preSearchAt N choose k)
      | none => preSearchAt N choose k := rfl

/-- The post-clear set of a cell survives into the state after that cell. -/
theorem preSearch_subset_next (N : ℕ) (choose : ℕ → Finset ℕ → Option ℕ) (k : ℕ) :
    preSearchAt N choose k ⊆ usedStateAt N choose (k + 1) := by
  rw [usedStateAt_succ]
  cases h : selAt N choose k with
  | none => exact Finset.Subset.refl _
  | some i => exact Finset.subset_insert i _

/-- If no clearing fires strictly after cell `j` and up to cell `k`, any
index in the state after cell `j` is still in the set the scan of cell
`k` sees. -/
theorem mem_preSearch_later (N : ℕ) (choose : ℕ → Finset ℕ → Option ℕ) (i j : ℕ) :
    ∀ k, j < k → (∀ m, j < m → m ≤ k → clearedAt N choose m = false) →
      i ∈ usedStateAt N choose (j + 1) → i ∈ preSearchAt N choose k := by
  intro k
  induction k with
  | zero => intro h; exact absurd h (Nat.not_lt_zero j)
  | succ k ih =>
    intro hjk hnoclr hmem
    have hclr : clearedAt N choose (k + 1) = false :=
      hnoclr (k + 1) (Nat.lt_succ_of_le (Nat.le_of_lt_succ hjk)) (le_refl _)
    have hcard : ¬(usedStateAt N choose (k + 1)).card = N := by
      intro hc
      rw [clearedAt, decide_eq_false_iff_not] at hclr
      exact hclr hc
    have hpre : preSearchAt N choose (k + 1) = usedStateAt N choose (k + 1) :=
      if_neg hcard
    rcases Nat.lt_succ_iff_lt_or_eq.mp hjk with hlt | heq
    · have h1 : i ∈ preSearchAt N choose k :=
        ih hlt (fun m hm1 hm2 => hnoclr m hm1 (le_trans hm2 (Nat.le_succ k))) hmem
      rw [hpre]
      exact preSearch_subset_next N choose k h1
    · subst heq
      rw [hpre]
      exact hmem

/-- Soundness of the per-cell selection with duplicate-avoidance enabled:
a winner is a library index outside the UsedSet. -/
theorem selectBest_sound (sqrtFn : ℚ → ℚ) (pw : ℚ → ℚ → ℚ) (cs : ColorSpace)
    (used : Finset ℕ) (blockImage : Image) (tiles : List (Image × FeatureMap))
    {s : ℚ} {i : ℕ}
    (h : selectBest sqrtFn pw cs true used blockImage tiles = some (s, i)) :
    i < tiles.length ∧ i ∉ used := by
  obtain ⟨img, col, hget, hcond, _⟩ := mem_scanTiles (minByFirst_mem h)
  refine ⟨?_, fun hmem => hcond ⟨rfl, hmem⟩⟩
  rcases List.getElem?_eq_some.mp hget with ⟨hlt, _⟩
  exact hlt

/-- The chooser actually run by `mosaic` at each cell (with
duplicate-avoidance enabled): scan the library against the cell's block
and keep the winning index. -/
def mosaicChoose (sqrtFn : ℚ → ℚ) (pw : ℚ → ℚ → ℚ) (cs : ColorSpace)
    (tiles : List (Image × FeatureMap)) (blockOf : ℕ → Image) :
    ℕ → Finset ℕ → Option ℕ :=
  fun k used => (selectBest sqrtFn pw cs true used (blockOf k) tiles).map Prod.snd

/-- The concrete chooser is sound. -/
theorem mosaicChoose_sound (sqrtFn : ℚ → ℚ) (pw : ℚ → ℚ → ℚ) (cs : ColorSpace)
    (tiles : List (Image × FeatureMap)) (blockOf : ℕ → Image)
    {k i : ℕ} {used : Finset ℕ}
    (h : mosaicChoose sqrtFn pw cs tiles blockOf k used = some i) :
    i < tiles.length ∧ i ∉ used := by
  rw [mosaicChoose, Option.map_eq_some'] at h
  obtain ⟨⟨s, i'⟩, hsel, hsnd⟩ := h
  cases hsnd
  exact selectBest_sound sqrtFn pw cs used (blockOf k) tiles hsel

/-- C5: with duplicate-avoidance enabled, along the whole traversal driven
by the scan of `mosaic`: (1) the UsedSet is cleared at a cell exactly
when its size before the cell equals the library size; (2) between two
consecutive resets no tile index is selected for two different cells;
(3) after each cell the winning index is a member of the UsedSet. -/
theorem c5_used_set_invariants (sqrtFn : ℚ → ℚ) (pw : ℚ → ℚ → ℚ)
    (cs : ColorSpace) (tiles : List (Image × FeatureMap)) (blockOf : ℕ → Image) :
    (∀ k, clearedAt tiles.length (mosaicChoose sqrtFn pw cs tiles blockOf) k = true ↔
        (usedStateAt tiles.length (mosaicChoose sqrtFn pw cs tiles blockOf) k).card
          = tiles.length) ∧
    (∀ j k i i', j < k →
        selAt tiles.length (mosaicChoose sqrtFn pw cs tiles blockOf) j = some i →
        selAt tiles.length (mosaicChoose sqrtFn pw cs tiles blockOf) k = some i' →
        (∀ m, j < m → m ≤ k →
          clearedAt tiles.length (mosaicChoose sqrtFn pw cs tiles blockOf) m = false) →
        i ≠ i') ∧
    (∀ k i, selAt tiles.length (mosaicChoose sqrtFn pw cs tiles blockOf) k = some i →
        i ∈ usedStateAt tiles.length (mosaicChoose sqrtFn pw cs tiles blockOf) (k + 1)) := by
  refine ⟨fun k => by simp [clearedAt], ?_, ?_⟩
  · intro j k i i' hjk hj hk hnoclr heq
    subst heq
    have h1 : i ∈ usedStateAt tiles.length (mosaicChoose sqrtFn pw cs tiles blockOf) (j + 1) := by
      rw [usedStateAt_succ, hj]
      exact Finset.mem_insert_self i _
    have h2 := mem_preSearch_later tiles.length
      (mosaicChoose sqrtFn pw cs tiles blockOf) i j k hjk hnoclr h1
    exact (mosaicChoose_sound sqrtFn pw cs tiles blockOf hk).2 h2
  · intro k i h
    rw [usedStateAt_succ, h]
    exact Finset.mem_insert_self i _

/-- Witness for `c5_used_set_invariants`: a one-tile library; the first
cell selects tile 0 and tile 0 is in the UsedSet afterwards. -/
theorem c5_used_set_invariants_witness :
    selAt 1 (mosaicChoose id (fun _ _ => 1) .rgb
        [([[((0 : ℚ), (0 : ℚ), (0 : ℚ))]], [[[0, 0, 0]]])]
        (fun _ => [[((0 : ℚ), (0 : ℚ), (0 : ℚ))]])) 0 = some 0 ∧
    0 ∈ usedStateAt 1 (mosaicChoose id (fun _ _ => 1) .rgb
        [([[((0 : ℚ), (0 : ℚ), (0 : ℚ))]], [[[0, 0, 0]]])]
        (fun _ => [[((0 : ℚ), (0 : ℚ), (0 : ℚ))]])) 1 := by
  have hsel : selAt 1 (mosaicChoose id (fun _ _ => 1) .rgb
      [([[((0 : ℚ), (0 : ℚ), (0 : ℚ))]], [[[0, 0, 0]]])]
      (fun _ => [[((0 : ℚ), (0 : ℚ), (0 : ℚ))]])) 0 = some 0 := by
    norm_num [selAt, preSearchAt, usedStateAt, mosaicChoose, selectBest,
      scanTiles, minByFirst, similarity, applyColorSpace, rgb_identity,
      iproduct, List.enum, List.enumFrom, List.filterMap, List.range_succ,
      List.range_zero, List.bind]
  exact ⟨hsel,
    (c5_used_set_invariants id (fun _ _ => 1) .rgb
      [([[((0 : ℚ), (0 : ℚ), (0 : ℚ))]], [[[0, 0, 0]]])]
      (fun _ => [[((0 : ℚ), (0 : ℚ), (0 : ℚ))]])).2.2 0 0 hsel⟩

/-- Embeds `imageops::replace(canvas, tile, ox, oy)` for a `w × h` tile:
the canvas pixel at `(i, j)` becomes the tile pixel `(i - ox, j - oy)`
inside the rectangle `[ox, ox+w) × [oy, oy+h)` and is untouched outside.
The canvas is modelled as a total pixel function; the library's clipping
at the canvas border is invisible here because in the run every tile
rectangle lies within the canvas by construction. -/
def replace {α : Type} (canvas tile : ℕ → ℕ → α) (ox oy w h : ℕ) : ℕ → ℕ → α :=
  fun i j =>
    if ox ≤ i ∧ i < ox + w ∧ oy ≤ j ∧ j < oy + h then tile (i - ox) (j - oy)
    else canvas i j

/-- Embeds `imageops::crop_imm(canvas, x, y, w, h)` as an offset view:
pixel `(i, j)` of the crop is canvas pixel `(x + i, y + j)` (accessed
only for `i < w`, `j < h` in the run). -/
def crop_imm {α : Type} (canvas : ℕ → ℕ → α) (x y : ℕ) : ℕ → ℕ → α :=
  fun i j => canvas (x + i) (y + j)

/-- The compositing part of the traversal loop: paste, for each visited
cell `(y, x)` in order, its assigned tile at offset `(x·w, y·h)`. -/
def pasteCells {α : Type} (w h : ℕ) (tileFor : ℕ × ℕ → ℕ → ℕ → α) :
    List (ℕ × ℕ) → (ℕ → ℕ → α) → (ℕ → ℕ → α)
  | [], canvas => canvas
  | c :: cs, canvas =>
      pasteCells w h tileFor cs (replace canvas (tileFor c) (c.2 * w) (c.1 * h) w h)

/-- A pixel inside the block rectangle of cell `(y, x)` lies outside the
block rectangle of every other cell `(y', x')`. -/
theorem cell_rect_disjoint (w h y x y' x' i j : ℕ) (hi : i < w) (hj : j < h)
    (hne : (y, x) ≠ ((y', x') : ℕ × ℕ)) :
    ¬(x' * w ≤ x * w + i ∧ x * w + i < x' * w + w ∧
      y' * h ≤ y * h + j ∧ y * h + j < y' * h + h) := by
  rintro ⟨h1, h2, h3, h4⟩
  apply hne
  have hx : x = x' := by
    by_contra hxx
    rcases Nat.lt_or_ge x x' with hlt | hge
    · have hb : (x + 1) * w ≤ x' * w := Nat.mul_le_mul_right w (Nat.succ_le_of_lt hlt)
      have hb' : x * w + w ≤ x' * w := by rw [Nat.succ_mul] at hb; exact hb
      omega
    · have hlt : x' < x := Nat.lt_of_le_of_ne hge fun he => hxx he.symm
      have hb : (x' + 1) * w ≤ x * w := Nat.mul_le_mul_right w (Nat.succ_le_of_lt hlt)
      have hb' : x' * w + w ≤ x * w := by rw [Nat.succ_mul] at hb; exact hb
      omega
  have hy : y = y' := by
    by_contra hyy
    rcases Nat.lt_or_ge y y' with hlt | hge
    · have hb : (y + 1) * h ≤ y' * h := Nat.mul_le_mul_right h (Nat.succ_le_of_lt hlt)
      have hb' : y * h + h ≤ y' * h := by rw [Nat.succ_mul] at hb; exact hb
      omega
    · have hlt : y' < y := Nat.lt_of_le_of_ne hge fun he => hyy he.symm
      have hb : (y' + 1) * h ≤ y * h := Nat.mul_le_mul_right h (Nat.succ_le_of_lt hlt)
      have hb' : y' * h + h ≤ y * h := by rw [Nat.succ_mul] at hb; exact hb
      omega
  rw [hx, hy]

/-- C7: pasting a tile overwrites exactly the rectangle
`[ox, ox+w) × [oy, oy+h)` and leaves everything outside unchanged; and
for a cell not in the list of already-composited cells, the block
sub-image extracted for it from the composited canvas equals the
corresponding region of the original canvas. -/
theorem c7_paste_rectangle_and_unvisited_blocks {α : Type} (w h : ℕ)
    (canvas tile : ℕ → ℕ → α) (ox oy : ℕ) (tileFor : ℕ × ℕ → ℕ → ℕ → α) :
    (∀ i j, ox ≤ i → i < ox + w → oy ≤ j → j < oy + h →
        replace canvas tile ox oy w h i j = tile (i - ox) (j - oy)) ∧
    (∀ i j, ¬(ox ≤ i ∧ i < ox + w ∧ oy ≤ j ∧ j < oy + h) →
        replace canvas tile ox oy w h i j = canvas i j) ∧
    (∀ (cells : List (ℕ × ℕ)) (c : ℕ × ℕ), c ∉ cells → ∀ i j, i < w → j < h →
        crop_imm (pasteCells w h tileFor cells canvas) (c.2 * w) (c.1 * h) i j
          = crop_imm canvas (c.2 * w) (c.1 * h) i j) := by
  refine ⟨fun i j h1 h2 h3 h4 => if_pos ⟨h1, h2, h3, h4⟩,
    fun i j hout => if_neg hout, ?_⟩
  intro cells
  induction cells generalizing canvas with
  | nil => intro c _ i j _ _; rfl
  | cons c' cs ih =>
    intro c hc i j hi hj
    have hne : c ≠ c' := fun he => hc (he ▸ List.mem_cons_self c' cs)
    have hcs : c ∉ cs := fun hm => hc (List.mem_cons_of_mem c' hm)
    rw [pasteCells, ih _ c hcs i j hi hj]
    show replace canvas (tileFor c') (c'.2 * w) (c'.1 * h) w h
        (c.2 * w + i) (c.1 * h + j) = canvas (c.2 * w + i) (c.1 * h + j)
    exact if_neg (cell_rect_disjoint w h c.1 c.2 c'.1 c'.2 i j hi hj
      (by cases c; cases c'; simpa using hne))

/-- Witness for `c7_paste_rectangle_and_unvisited_blocks`: on a 1×1 block
grid, after compositing cell `(0, 0)`, the block of the unvisited cell
`(0, 1)` still reads the original canvas. -/
theorem c7_paste_witness :
    (((0 : ℕ), (1 : ℕ)) ∉ [((0 : ℕ), (0 : ℕ))]) ∧
    crop_imm (pasteCells 1 1 (fun _ _ _ => (7 : ℕ)) [((0 : ℕ), (0 : ℕ))]
        (fun i j => i + j)) (1 * 1) (0 * 1) 0 0
      = crop_imm (fun i j => i + j) (1 * 1) (0 * 1) 0 0 :=
  ⟨by decide,
    (c7_paste_rectangle_and_unvisited_blocks 1 1 (fun i j => i + j)
      (fun _ _ => 7) 0 0 (fun _ _ _ => 7)).2.2
      [((0 : ℕ), (0 : ℕ))] ((0 : ℕ), (1 : ℕ)) (by decide) 0 0
      (by decide) (by decide)⟩

/-- Embeds `iproduct!(0..col_size, 0..row_size).collect_vec()` from
`mosaic` (line 95 of `src/mosaic.rs`): the list of cell coordinates
`(y, x)` with `y < col_size`, `x < row_size`, before shuffling. -/
def block_index (col_size row_size : ℕ) : List (ℕ × ℕ) :=
  iproduct col_size row_size

/-- The index enumeration is the standard list product of two ranges. -/
theorem iproduct_eq_product (n m : ℕ) :
    iproduct n m = (List.range n) ×ˢ (List.range m) := rfl

/-- Count is invariant under permutation (for the `BEq` instance of the
product type). -/
theorem perm_count {α : Type} [BEq α] {l1 l2 : List α} (h : l1.Perm l2) (a : α) :
    l1.count a = l2.count a := by
  rw [List.count_eq_countP, List.count_eq_countP, h.countP_eq]

/-- In a duplicate-free list, every member has count 1. -/
theorem count_one {α : Type} [BEq α] [LawfulBEq α] {l : List α} {a : α}
    (hn : l.Nodup) (hm : a ∈ l) : l.count a = 1 := by
  induction l with
  | nil => cases hm
  | cons b l ih =>
    rw [List.count_cons]
    rcases List.mem_cons.mp hm with rfl | hml
    · have hnl : a ∉ l := (List.nodup_cons.mp hn).1
      rw [List.count_eq_zero.mpr hnl]
      simp
    · have hab : a ≠ b := fun he => (List.nodup_cons.mp hn).1 (he ▸ hml)
      rw [ih (List.nodup_cons.mp hn).2 hml]
      simp [Ne.symm hab]

/-- The cell enumeration has no duplicates. -/
theorem block_index_nodup (col_size row_size : ℕ) :
    (block_index col_size row_size).Nodup := by
  rw [block_index, iproduct_eq_product]
  exact (List.nodup_range col_size).product (List.nodup_range row_size)

/-- Membership in the cell enumeration. -/
theorem mem_block_index (col_size row_size y x : ℕ) :
    (y, x) ∈ block_index col_size row_size ↔ y < col_size ∧ x < row_size := by
  rw [block_index, iproduct_eq_product]
  simp [List.mem_product]

/-- C8: for positive `row_size` and `col_size`, any traversal order that
is a permutation of the shuffled cell list (`shuffle` permutes its
input) has length `col_size · row_size` and visits every cell `(y, x)`
with `y < col_size`, `x < row_size` exactly once. -/
theorem c8_traversal_is_permutation (row_size col_size : ℕ)
    (hr : 0 < row_size) (hc : 0 < col_size) (order : List (ℕ × ℕ))
    (hperm : order.Perm (block_index col_size row_size)) :
    order.length = col_size * row_size ∧
    ∀ y x, y < col_size → x < row_size → order.count (y, x) = 1 := by
  constructor
  · rw [hperm.length_eq, block_index, iproduct_eq_product,
      List.length_product, List.length_range, List.length_range]
  · intro y x hy hx
    rw [perm_count hperm]
    exact count_one (block_index_nodup col_size row_size)
      ((mem_block_index col_size row_size y x).mpr ⟨hy, hx⟩)

/-- Witness for `c8_traversal_is_permutation` on a concrete 2×2 grid with
a concrete (reversed) shuffle. -/
theorem c8_traversal_witness :
    (0 < 2) ∧
    ([((1 : ℕ), (1 : ℕ)), (1, 0), (0, 1), (0, 0)] : List (ℕ × ℕ)).Perm
      (block_index 2 2) ∧
    ([((1 : ℕ), (1 : ℕ)), (1, 0), (0, 1), (0, 0)] : List (ℕ × ℕ)).length = 2 * 2 ∧
    ([((1 : ℕ), (1 : ℕ)), (1, 0), (0, 1), (0, 0)] : List (ℕ × ℕ)).count (0, 1) = 1 := by
  have hp : ([((1 : ℕ), (1 : ℕ)), (1, 0), (0, 1), (0, 0)] : List (ℕ × ℕ)).Perm
      (block_index 2 2) := by decide
  have h := c8_traversal_is_permutation 2 2 (by decide) (by decide) _ hp
  exact ⟨by decide, hp, h.1, h.2 0 1 (by decide) (by decide)⟩

end Mosaicify
